import Mathlib

/-!
# twinguards: target registry, process probe, launcher, supervisor cycle, heartbeat loop

A shallow embedding of `twinguards.c`.

* A C string is represented by the list of its characters before the
  terminating NUL; a `char *` that may be `NULL` is an `Option`.
* `struct target targets[256]` is the list of its slots, in index order.
* Every `logf` call and every system call whose effect leaves the process
  (`execvp`, `kill`) is recorded as an `Event`, in program order.
* The operating system is an explicit parameter: the config file content,
  the `/proc` answers, `fork`, the heartbeat pipe and the clock.
-/

namespace TwinGuards

/-! ## Definitions -/

/-- The NUL byte. -/
def NUL : Char := Char.ofNat 0

/-- The line feed. -/
def LF : Char := Char.ofNat 10

/-- The space, the argument delimiter. -/
def SP : Char := Char.ofNat 32

/-- The comment marker. -/
def HASH : Char := Char.ofNat 35

/-- Size of the target table, of the line buffer and of the probe buffer. -/
def NSLOTS : Nat := 256

/-- Record `struct target`. -/
structure Target where
  cmdline : Option (List Char)
  found : Int
  pid : Int
deriving DecidableEq, Repr

/-- What the program prints with `logf`, plus the calls `execvp` and `kill`. -/
inductive Event where
  | lookup (c : List Char)
  | pid_is (pid : Int) (c : List Char)
  | invoke (c : List Char)
  | execvp (argv : List (List Char))
  | running (pid : Int) (c : List Char)
  | add_target (c : List Char)
  | unable_to_add
  | no (c : List Char)
  | check_targets
  | unknown (c : List Char)
  | missing (pid : Int) (c : List Char)
  | alive (pid : Int) (c : List Char)
  | guard_with (pid : Int)
  | send_ping
  | ping_error
  | select_error
  | timeout
  | ping_read_error
  | get_ping
  | kill (pid : Int)
deriving DecidableEq, Repr

/-! ### The target table -/

/-- A zeroed slot, as in the static table at program start. -/
def emptySlot : Target := { cmdline := none, found := 0, pid := 0 }

/-- The table at program start: 256 zeroed slots. -/
def emptyRegistry : List Target := List.replicate NSLOTS emptySlot

/-- Function `get_target`: index of the first occupied slot whose command line
equals `c`. -/
def get_target : List Target → List Char → Option Nat
  | [], _ => none
  | t :: ts, c =>
    match t.cmdline with
    | none => (get_target ts c).map (· + 1)
    | some d => if d = c then some 0 else (get_target ts c).map (· + 1)

/-- Assignment `t->found = v` through the pointer to slot `i`. -/
def set_found : List Target → Nat → Int → List Target
  | [], _, _ => []
  | t :: ts, 0, v => { t with found := v } :: ts
  | t :: ts, i + 1, v => t :: set_found ts i v

/-- Function `add_target`: the first free slot takes a copy of `c` with
`found = 1` (the pid field is not written); with no free slot the table is left
as it is and the capacity message is printed. -/
def add_target : List Target → List Char → List Target × List Event
  | [], _ => ([], [Event.unable_to_add])
  | t :: ts, c =>
    match t.cmdline with
    | some _ => ((t :: (add_target ts c).1), (add_target ts c).2)
    | none => ({ t with cmdline := some c, found := 1 } :: ts, [Event.add_target c])

/-- Function `reinit_targets`. -/
def reinit_targets (r : List Target) : List Target :=
  r.map fun t => { t with found := 0 }

/-- Function `refresh_targets`: an occupied slot with `found == 0` is freed
(only the command line pointer is cleared). -/
def refresh_targets : List Target → List Target × List Event
  | [] => ([], [])
  | t :: ts =>
    match t.cmdline with
    | some c =>
      if t.found = 0 then
        ({ t with cmdline := none } :: (refresh_targets ts).1, Event.no c :: (refresh_targets ts).2)
      else (t :: (refresh_targets ts).1, (refresh_targets ts).2)
    | none => (t :: (refresh_targets ts).1, (refresh_targets ts).2)

/-! ### Reading the config file -/

/-- Characters one `fgets` call stores: at most `n`, stopping after a line
feed; the second component is the unread rest of the stream. -/
def fgetsAux : Nat → List Char → List Char × List Char
  | 0, s => ([], s)
  | _ + 1, [] => ([], [])
  | n + 1, c :: s =>
    if c = LF then ([c], s) else (c :: (fgetsAux n s).1, (fgetsAux n s).2)

/-- Call `fgets(buf, size, fp)`: `none` at end of file, else the characters
stored (at most `size - 1`) and the rest of the stream. -/
def fgets (size : Nat) (s : List Char) : Option (List Char × List Char) :=
  match s with
  | [] => none
  | _ :: _ => some (fgetsAux (size - 1) s)

/-- The C string held by a buffer: the bytes before the first NUL. -/
def cstr (buf : List Char) : List Char := buf.takeWhile (· ≠ NUL)

/-- Lines 194-201 of `loadconfig`: the command line a buffer filled by `fgets`
stands for, or `none` when the loop skips it (no line feed, comment, empty). -/
def parse_line (buf : List Char) : Option (List Char) :=
  if LF ∈ cstr buf then
    let line := (cstr buf).takeWhile (· ≠ LF)
    if line.head? = some HASH then none
    else if line.length = 0 then none
    else some line
  else none

/-- Lines 203-208 of `loadconfig`: a command line is looked up and marked, or
added. -/
def register (st : List Target × List Event) (c : List Char) : List Target × List Event :=
  match get_target st.1 c with
  | none => ((add_target st.1 c).1, st.2 ++ (add_target st.1 c).2)
  | some i => (set_found st.1 i 1, st.2)

/-- The `while (fgets(...) != NULL)` loop of `loadconfig`; each round consumes
at least one character, so `fuel = length of the stream` rounds suffice. -/
def loadconfig_loop : Nat → List Char → List Target × List Event → List Target × List Event
  | 0, _, st => st
  | fuel + 1, s, st =>
    match fgets NSLOTS s with
    | none => st
    | some (buf, rest) =>
      match parse_line buf with
      | none => loadconfig_loop fuel rest st
      | some c => loadconfig_loop fuel rest (register st c)

/-- Function `loadconfig`; `file = none` when `fopen` fails. -/
def loadconfig (r : List Target) (file : Option (List Char)) : List Target × List Event :=
  match file with
  | none => (reinit_targets r, [])
  | some s =>
    let st := loadconfig_loop s.length s (reinit_targets r, [])
    ((refresh_targets st.1).1, st.2 ++ (refresh_targets st.1).2)

/-- The config file holding the given lines, each ended by a line feed. -/
def configFile (lines : List (List Char)) : List Char :=
  lines.flatMap fun l => l ++ [LF]

/-- Command lines of the occupied slots, in slot order. -/
def registered (r : List Target) : List (List Char) :=
  r.filterMap fun t => t.cmdline

/-- Number of free slots. -/
def freeSlots (r : List Target) : Nat :=
  r.countP fun t => t.cmdline = none

/-! ### The process probe -/

/-- Outcome of `open` and `read` on `/proc/<pid>/cmdline`. -/
inductive ProcRead where
  | open_failed
  | read_failed
  | content (bytes : List Char)
deriving DecidableEq, Repr

/-- The operating system as seen by the supervisor. The first argument of each
field is the number of system interactions made so far, so that every answer
may differ from the previous one. -/
structure World where
  /-- names returned by the successive `readdir` calls on `/proc` (`opendir`
  is taken to succeed) -/
  procdir : Nat → List (List Char)
  /-- what `/proc/<pid>/cmdline` gives -/
  cmdlineFile : Nat → Int → ProcRead
  /-- bytes the uninitialised local `buf` of `target_is_target` holds on entry -/
  stack : Nat → Nat → Char
  /-- result of `fork` in the parent: `none` when it fails, `some p` for the
  child pid `p + 1` -/
  fork : Nat → Option Nat

/-- Byte `buf[i]` after `read(fd, buf, 256)` stored `raw`: the bytes read, then
what the buffer held before. -/
def bufAt (stale : Nat → Char) (raw : List Char) (i : Nat) : Char :=
  raw.getD i (stale i)

/-- The comparison loop of `target_is_target` (lines 66-73), from index `i`
over the remaining characters of the command line. -/
def cmp_loop (buf : Nat → Char) : Nat → List Char → Int
  | _, [] => 0
  | i, c :: cs =>
    if buf i = NUL ∧ c = SP then cmp_loop buf (i + 1) cs
    else if buf i ≠ c then -1
    else cmp_loop buf (i + 1) cs

/-- Function `target_is_target`, for a target whose command line is `c`:
`0` for a match and `-1` otherwise. -/
def target_is_target (stale : Nat → Char) (c : List Char) (f : ProcRead) : Int :=
  match f with
  | ProcRead.open_failed => -1
  | ProcRead.read_failed => -1
  | ProcRead.content bytes =>
    let raw := bytes.take NSLOTS
    if raw.length ≤ 0 then -1
    else cmp_loop (bufAt stale raw) 0 c

/-- Function `atoi` on a name that starts with a digit. -/
def atoi (name : List Char) : Int :=
  ((name.takeWhile Char.isDigit).foldl (fun n d => 10 * n + (d.toNat - 48)) 0 : Nat)

/-- The `readdir` loop of `target_loockup` over the remaining directory
entries; `k` counts the system interactions. -/
def lookup_loop (w : World) (c : List Char) (t : Target) :
    List (List Char) → Nat → Target × Nat × List Event
  | [], k => (t, k, [])
  | name :: names, k =>
    let ch := name.headD NUL
    if ch < Char.ofNat 49 ∨ Char.ofNat 57 < ch then lookup_loop w c t names k
    else
      let pid := atoi name
      if target_is_target (w.stack k) c (w.cmdlineFile k pid) = -1 then
        lookup_loop w c t names (k + 1)
      else ({ t with pid := atoi name }, k + 1, [Event.pid_is pid c])

/-- Function `target_loockup`. -/
def target_loockup (w : World) (t : Target) (k : Nat) : Target × Nat × List Event :=
  match t.cmdline with
  | none => (t, k, [])
  | some c =>
    if t.pid ≠ 0 then (t, k, [])
    else
      let r := lookup_loop w c t (w.procdir k) (k + 1)
      (r.1, r.2.1, Event.lookup c :: r.2.2)

/-! ### The launcher -/

/-- Call `strncpy(buf, c, 256)`: the first 256 characters, padded with NUL. -/
def strncpy (c : List Char) : List Char :=
  c.take NSLOTS ++ List.replicate (NSLOTS - c.length) NUL

/-- The splitting loop of `target_invoke` (lines 113-119) over the indices
`is`: the buffer and the offsets stored in `argv[1..]`, in order. -/
def split_loop : List Nat → List Char × List Nat → List Char × List Nat
  | [], st => st
  | i :: is, (buf, argv) =>
    if buf.getD i NUL = SP then split_loop is (buf.set i NUL, argv ++ [i + 1])
    else split_loop is (buf, argv)

/-- Lines 106-121 of `target_invoke`: the buffer after splitting and the
offsets held by `argv[0 .. argc-1]` (the entry `argv[argc]` is `NULL`). -/
def build_argv (c : List Char) : List Char × List Nat :=
  split_loop (List.range' 1 (c.length - 1)) (strncpy c, [0])

/-- The C string that starts at offset `off` of the buffer. -/
def argAt (buf : List Char) (off : Nat) : List Char := cstr (buf.drop off)

/-- The argument vector handed to `execvp`. -/
def argv_of (c : List Char) : List (List Char) :=
  (build_argv c).2.map (argAt (build_argv c).1)

/-- Number of `argv` entries written, the closing `NULL` included. -/
def argv_entries (c : List Char) : Nat := (build_argv c).2.length + 1

/-- Bytes of `/proc/<pid>/cmdline` for a process started with `args`: each
argument followed by a NUL. -/
def procCmdline (args : List (List Char)) : List Char :=
  args.flatMap fun a => a ++ [NUL]

/-- Function `target_invoke`, in the parent process; what the child does (close
the descriptors, `execvp(argv[0], argv)`) is recorded as the `execvp` event. -/
def target_invoke (w : World) (c : List Char) (t : Target) (k : Nat) :
    Target × Nat × List Event :=
  let t0 := { t with pid := 0 }
  match w.fork k with
  | none => (t0, k + 1, [Event.invoke c])
  | some p =>
    let pid : Int := p + 1
    if target_is_target (w.stack (k + 1)) c (w.cmdlineFile (k + 1) pid) = 0 then
      ({ t0 with pid := pid }, k + 2, [Event.invoke c, Event.execvp (argv_of c), Event.running pid c])
    else (t0, k + 2, [Event.invoke c, Event.execvp (argv_of c)])

/-! ### The supervisor cycle -/

/-- The body of the `for` loop of `check` for an occupied slot (lines 228-242):
the slot, the launch counter `n`, the interaction counter and the events. -/
def check_slot (w : World) (c : List Char) (t : Target) (n : Int) (k : Nat) :
    Target × Int × Nat × List Event :=
  let l := target_loockup w t k
  let a : Target × Int × Nat × List Event :=
    if l.1.pid = 0 then
      let i := target_invoke w c l.1 l.2.1
      (i.1, n + 1, i.2.1, l.2.2 ++ Event.unknown c :: i.2.2)
    else (l.1, n, l.2.1, l.2.2)
  if a.1.pid > 0 then
    if target_is_target (w.stack a.2.2.1) c (w.cmdlineFile a.2.2.1 a.1.pid) = -1 then
      let i := target_invoke w c a.1 (a.2.2.1 + 1)
      (i.1, a.2.1 + 1, i.2.1, a.2.2.2 ++ Event.missing a.1.pid c :: i.2.2)
    else (a.1, a.2.1, a.2.2.1 + 1, a.2.2.2 ++ [Event.alive a.1.pid c])
  else a

/-- The `for` loop of `check` over the remaining slots. -/
def check_loop (w : World) : List Target → Int → Nat → List Target × Nat × List Event
  | [], _, k => ([], k, [])
  | t :: ts, n, k =>
    if n > 10 then (t :: ts, k, [])
    else
      match t.cmdline with
      | none =>
        let r := check_loop w ts n k
        (t :: r.1, r.2.1, r.2.2)
      | some c =>
        let s := check_slot w c t n k
        let r := check_loop w ts s.2.1 s.2.2.1
        (s.1 :: r.1, r.2.1, s.2.2.2 ++ r.2.2)

/-- Function `check`. -/
def check (w : World) (r : List Target) (k : Nat) : List Target × Nat × List Event :=
  let res := check_loop w r 0 k
  (res.1, res.2.1, Event.check_targets :: res.2.2)

/-- Number of `target_invoke` calls recorded in a run. -/
def invocations (evs : List Event) : Nat :=
  evs.countP fun e => match e with
    | Event.invoke _ => true
    | _ => false

/-- A world in which no process ever matches and every launch goes unverified. -/
def deadWorld : World :=
  { procdir := fun _ => [], cmdlineFile := fun _ _ => ProcRead.open_failed,
    stack := fun _ _ => NUL, fork := fun k => some k }

/-- Command line number `i` of the sample tables. -/
def jobName (i : Nat) : List Char := Char.ofNat 106 :: Nat.toDigits 10 i

/-- A table whose first `m` slots hold distinct targets with no pid. -/
def sampleRegistry (m : Nat) : List Target :=
  (List.range NSLOTS).map fun i =>
    if i < m then { cmdline := some (jobName i), found := 1, pid := 0 } else emptySlot

/-! ### The heartbeat loop -/

/-- The heartbeat side of the operating system, indexed by the round of the
loop of `guard`: return values of `write`, `select` and `read`, and the time in
microseconds that `check`, `sleep(60)`, `select` and `sleep(1)` take. -/
structure Heartbeat where
  write : Nat → Int
  select : Nat → Int
  read : Nat → Int
  check_time : Nat → Nat
  sleep60_time : Nat → Nat
  select_time : Nat → Nat
  sleep1_time : Nat → Nat

/-- Variables of `guard` and of the process around it. -/
structure GuardState where
  ping : Int
  /-- field `now.tv_sec` -/
  now : Int
  /-- the wall clock, in microseconds -/
  clock : Nat
  round : Nat
  /-- number of `select` calls made -/
  waits : Nat
  targets : List Target
  /-- interactions made with the process side of the system -/
  tick : Nat
  events : List Event

/-- Field `tv_sec` that `gettimeofday` stores at the given clock value. -/
def tv_sec (clock : Nat) : Int := ((clock / 1000000 : Nat) : Int)

/-- Lines 256-268 of `guard`: the `if (ping)` block. The flag is `false` when
the block leaves the loop (the write failed). -/
def guard_send (w : World) (h : Heartbeat) (master : Int) (s : GuardState) :
    GuardState × Bool :=
  if s.ping ≠ 0 then
    let s1 : GuardState :=
      if master ≠ 0 then
        let c := check w s.targets s.tick
        { s with targets := c.1, tick := c.2.1, events := s.events ++ c.2.2,
                 clock := s.clock + h.check_time s.round }
      else s
    if h.write s.round < 0 then
      ({ s1 with events := s1.events ++ [Event.send_ping, Event.ping_error] }, false)
    else
      let clock := s1.clock + h.sleep60_time s.round
      ({ s1 with events := s1.events ++ [Event.send_ping], clock := clock, ping := 0,
                 now := tv_sec clock }, true)
  else (s, true)

/-- Lines 270-296 of `guard`: the bounded wait, the deadline check and the
read. The flag is `false` when the loop is left. The set holds `rfd` alone, so
`FD_ISSET(rfd, &fds)` is `ret > 0`. -/
def guard_wait (h : Heartbeat) (s : GuardState) : GuardState × Bool :=
  let ret := h.select s.round
  let clock := s.clock + h.select_time s.round
  let s1 : GuardState := { s with clock := clock, waits := s.waits + 1 }
  if ret < 0 then ({ s1 with events := s1.events ++ [Event.select_error] }, false)
  else if tv_sec clock - s.now > 120 then
    ({ s1 with events := s1.events ++ [Event.timeout] }, false)
  else if ret > 0 then
    if h.read s.round ≤ 0 then
      ({ s1 with events := s1.events ++ [Event.ping_read_error] }, false)
    else
      ({ s1 with events := s1.events ++ [Event.get_ping], ping := 1,
                 clock := clock + h.sleep1_time s.round }, true)
  else (s1, true)

/-- One round of the `for (;;)` loop of `guard`. -/
def guard_round (w : World) (h : Heartbeat) (master : Int) (s : GuardState) :
    GuardState × Bool :=
  let a := guard_send w h master s
  if a.2 then
    let b := guard_wait h a.1
    ({ b.1 with round := s.round + 1 }, b.2)
  else ({ a.1 with round := s.round + 1 }, false)

/-- The loop of `guard`, for at most `fuel` rounds: the state at the `break`. -/
def guard_loop (w : World) (h : Heartbeat) (master : Int) : Nat → GuardState → Option GuardState
  | 0, _ => none
  | fuel + 1, s =>
    let r := guard_round w h master s
    if r.2 then guard_loop w h master fuel r.1 else some r.1

/-- Function `guard(pid, rfd, wfd, ping)` started at clock value `t0` on the
table `r`: the state when it returns, if the loop ends within `fuel` rounds. -/
def guard (w : World) (h : Heartbeat) (fuel : Nat) (r : List Target) (t0 : Nat)
    (pid : Int) (ping : Int) : Option GuardState :=
  let s0 : GuardState :=
    { ping := ping, now := tv_sec t0, clock := t0, round := 0, waits := 0,
      targets := r, tick := 0, events := [Event.guard_with pid] }
  (guard_loop w h ping fuel s0).map fun s =>
    { s with events := s.events ++ [Event.kill pid] }

/-- A twin that never answers: every `select` times out after exactly 60
seconds, every `write` succeeds, `sleep(60)` takes 60 seconds. -/
def silentTwin : Heartbeat :=
  { write := fun _ => 4, select := fun _ => 0, read := fun _ => 0,
    check_time := fun _ => 0, sleep60_time := fun _ => 60000000,
    select_time := fun _ => 60000000, sleep1_time := fun _ => 1000000 }

/-- A twin whose pipe is already closed: the first `write` fails. -/
def goneTwin : Heartbeat := { silentTwin with write := fun _ => -1 }

/-! ### Sequences of reconciliations and cycles -/

/-- One step of the master process on its table. -/
inductive Op where
  | reconcile (file : Option (List Char))
  | cycle (w : World)

/-- The table and the events after a sequence of steps. -/
def run : List Op → List Target × List Event → List Target × List Event
  | [], st => st
  | Op.reconcile file :: ops, st =>
    run ops ((loadconfig st.1 file).1, st.2 ++ (loadconfig st.1 file).2)
  | Op.cycle w :: ops, st =>
    run ops ((check w st.1 0).1, st.2 ++ (check w st.1 0).2.2)

/-- A successful probe of `pid` against the command line `c` was reported:
by the `/proc` walk, after a launch, or by the re-verification. -/
def confirmed (evs : List Event) (pid : Int) (c : List Char) : Bool :=
  evs.contains (Event.pid_is pid c) || evs.contains (Event.running pid c)
    || evs.contains (Event.alive pid c)

/-- Every registered target has pid 0 or a pid confirmed against its own
command line. -/
def pidsConfirmed (st : List Target × List Event) : Bool :=
  st.1.all fun t =>
    match t.cmdline with
    | none => true
    | some c => t.pid = 0 || confirmed st.2 t.pid c

/-- A world with one process, pid 5, running the given command. -/
def oneProcess (args : List (List Char)) : World :=
  { procdir := fun _ => ["self".toList, "5".toList],
    cmdlineFile := fun _ pid =>
      if pid = 5 then ProcRead.content (procCmdline args) else ProcRead.open_failed,
    stack := fun _ _ => NUL, fork := fun _ => none }

/-- The stale buffer content given by a list. -/
def staleOf (l : List Char) (i : Nat) : Char := l.getD i NUL

/-- A world in which the eleventh launch of a cycle started at interaction 0 is
verified and the very next probe of the new process fails. -/
def flappingWorld : World :=
  { procdir := fun _ => [],
    cmdlineFile := fun k _ =>
      if k = 32 then ProcRead.content (procCmdline [jobName 10]) else ProcRead.open_failed,
    stack := fun _ _ => NUL, fork := fun k => some k }

/-! ### Auxiliary notions used in the proofs -/

/-- The characters with every space turned into NUL. -/
def nulled (xs : List Char) : List Char := xs.map fun ch => if ch = SP then NUL else ch

/-- Offsets `base + i + 1` of the characters that follow a space at position
`i` of `xs`. -/
def offsSP (base : Nat) : List Char → List Nat
  | [] => []
  | x :: xs => if x = SP then (base + 1) :: offsSP (base + 1) xs else offsSP (base + 1) xs

/-- Command lines of the occupied slots whose `found` flag is set. -/
def marked (r : List Target) : List (List Char) :=
  r.filterMap fun t => if t.found = 0 then none else t.cmdline

/-- The table after `t->found = 1` on the slot `get_target` returns for `c`. -/
def touch : List Target → List Char → List Target
  | [], _ => []
  | t :: ts, c => if t.cmdline = some c then { t with found := 1 } :: ts else t :: touch ts c

/-- No slot that follows a slot holding `c` is a marked slot holding `c`: a
marked slot is the first one with its command line. -/
def firstMarked : List Target → Prop
  | [] => True
  | t :: ts => (∀ c, t.cmdline = some c → c ∉ marked ts) ∧ firstMarked ts

/-- The buffers the successive `fgets` calls of `loadconfig` fill, for at most
`fuel` calls. -/
def readChunks : Nat → List Char → List (List Char)
  | 0, _ => []
  | fuel + 1, s =>
    match fgets NSLOTS s with
    | none => []
    | some (buf, rest) => buf :: readChunks fuel rest

/-- The command lines that `loadconfig` hands to the registry for a file, in
order. -/
def configLines (s : List Char) : List (List Char) :=
  (readChunks s.length s).filterMap parse_line

/-- A line that is neither empty nor a comment. -/
def validLine (l : List Char) : Bool := l ≠ [] && l.head? ≠ some HASH

/-- The snapshot of the end-to-end example: two commands, a comment and a
blank line. -/
def sampleLines : List (List Char) :=
  ["sleep 999999".toList, "# nightly job".toList, [], "echo hi".toList]

/-! ## Theorems -/

/-! ### Launches per supervisor cycle -/

theorem invocations_nil : invocations [] = 0 := rfl

theorem invocations_append (a b : List Event) :
    invocations (a ++ b) = invocations a + invocations b := by
  simp [invocations, List.countP_append]

theorem invocations_cons (e : Event) (l : List Event) :
    invocations (e :: l) = invocations [e] + invocations l := by
  simp [invocations, List.countP_cons, Nat.add_comm]

theorem lookup_loop_invocations (w : World) (c : List Char) (t : Target)
    (names : List (List Char)) (k : Nat) :
    invocations (lookup_loop w c t names k).2.2 = 0 := by
  induction names generalizing k with
  | nil => rfl
  | cons name names ih =>
    unfold lookup_loop
    simp only []
    split
    · exact ih k
    · split
      · exact ih (k + 1)
      · rfl

theorem target_loockup_invocations (w : World) (t : Target) (k : Nat) :
    invocations (target_loockup w t k).2.2 = 0 := by
  unfold target_loockup
  split
  · rfl
  · split
    · rfl
    · simp only []
      rw [invocations_cons, lookup_loop_invocations]
      rfl

theorem target_invoke_invocations (w : World) (c : List Char) (t : Target) (k : Nat) :
    invocations (target_invoke w c t k).2.2 = 1 := by
  unfold target_invoke
  simp only []
  split
  · rfl
  · split <;> rfl

/-- One slot of `check` launches as often as it advances the counter, and at
most twice. -/
theorem check_slot_invocations (w : World) (c : List Char) (t : Target) (n : Int) (k : Nat) :
    ((invocations (check_slot w c t n k).2.2.2 : Nat) : Int) = (check_slot w c t n k).2.1 - n
      ∧ (check_slot w c t n k).2.1 ≤ n + 2 := by
  unfold check_slot
  simp only []
  have h1 : ∀ l : List Event, invocations (Event.unknown c :: l) = invocations l := by
    intro l; simp [invocations]
  have h2 : ∀ (p : Int) (l : List Event), invocations (Event.missing p c :: l) = invocations l := by
    intro p l; simp [invocations]
  have h3 : ∀ p : Int, invocations [Event.alive p c] = 0 := by
    intro p; simp [invocations]
  split_ifs <;>
    simp only [invocations_append, h1, h2, h3, target_loockup_invocations,
      target_invoke_invocations] <;> omega

theorem check_loop_invocations (w : World) (ts : List Target) (n : Int) (k : Nat)
    (hn : n ≤ 12) :
    ((invocations (check_loop w ts n k).2.2 : Nat) : Int) + n ≤ 12 := by
  induction ts generalizing n k with
  | nil => simpa [check_loop, invocations] using hn
  | cons t ts ih =>
    unfold check_loop
    split
    · simpa [invocations] using hn
    · split
      · exact ih n k hn
      · rename_i c _
        simp only []
        have hs := check_slot_invocations w c t n k
        have hi := ih (check_slot w c t n k).2.1 (check_slot w c t n k).2.2.1 (by omega)
        rw [invocations_append]
        push_cast
        omega

/-- The bound the loop of `check` does enforce: never more than 12 launches in
one cycle. -/
theorem check_invocations_le (w : World) (r : List Target) (k : Nat) :
    invocations (check w r k).2.2 ≤ 12 := by
  have h := check_loop_invocations w r 0 k (by norm_num)
  unfold check
  simp only []
  rw [invocations_cons]
  have : invocations [Event.check_targets] = 0 := rfl
  omega

/-- With ten launches already made, one more slot can still launch twice. -/
theorem check_invocations_twelve :
    invocations (check flappingWorld (sampleRegistry 11) 0).2.2 = 12 := by decide!

/-- C1, at the failing input: with eleven targets down, no process matching and
no launch verified, one call of `check` calls `target_invoke` eleven times,
one more than the quota of ten (the test `n > 10` is made at the head of the
loop, before the slot that follows the tenth launch is handled). -/
theorem check_exceeds_quota :
    invocations (check deadWorld (sampleRegistry 11) 0).2.2 = 11
      ∧ ¬ invocations (check deadWorld (sampleRegistry 11) 0).2.2 ≤ 10 := by decide!

/-! ### Config file that cannot be opened -/

/-- C8: when the config file cannot be opened, `loadconfig` keeps the command
line and the pid of every slot (so no target is removed and none is added),
resets every `found` flag and prints nothing. -/
theorem loadconfig_open_failure (r : List Target) :
    (loadconfig r none).1.map (fun t => (t.cmdline, t.pid)) = r.map (fun t => (t.cmdline, t.pid))
      ∧ registered (loadconfig r none).1 = registered r
      ∧ (∀ t ∈ (loadconfig r none).1, t.found = 0)
      ∧ (loadconfig r none).2 = [] := by
  refine ⟨?_, ?_, ?_, rfl⟩
  · simp [loadconfig, reinit_targets, Function.comp_def]
  · simp only [loadconfig, reinit_targets, registered]
    induction r with
    | nil => rfl
    | cons t ts ih => cases h : t.cmdline <;> simp [List.filterMap_cons, h, ih]
  · intro t ht
    simp only [loadconfig, reinit_targets, List.mem_map] at ht
    obtain ⟨u, _, rfl⟩ := ht
    rfl

/-! ### Adding to a full table -/

theorem add_target_full (r : List Target) (c : List Char)
    (hfull : ∀ t ∈ r, t.cmdline ≠ none) :
    add_target r c = (r, [Event.unable_to_add]) := by
  induction r with
  | nil => rfl
  | cons t ts ih =>
    have ht : t.cmdline ≠ none := hfull t (List.mem_cons_self _ _)
    have hts := ih (fun u hu => hfull u (List.mem_cons_of_mem _ hu))
    unfold add_target
    split
    · rw [hts]
    · rename_i h
      exact absurd h ht

/-- C9: on a table whose 256 slots are all occupied, `add_target c` returns the
table unchanged (every slot keeps its command line, pid and found flag, so `c`
is not added) and prints the capacity message. -/
theorem add_target_at_capacity (r : List Target) (c : List Char)
    (hlen : r.length = NSLOTS) (hfull : ∀ t ∈ r, t.cmdline ≠ none) :
    (add_target r c).1 = r
      ∧ registered (add_target r c).1 = registered r
      ∧ (add_target r c).2 = [Event.unable_to_add]
      ∧ (add_target r c).1.length = NSLOTS := by
  rw [add_target_full r c hfull]
  exact ⟨rfl, rfl, rfl, hlen⟩

/-- Witness of C9: the table holding 256 distinct targets rejects one more. -/
theorem add_target_at_capacity_witness :
    (add_target (sampleRegistry 256) "echo hi".toList).1 = sampleRegistry 256
      ∧ registered (add_target (sampleRegistry 256) "echo hi".toList).1
          = registered (sampleRegistry 256)
      ∧ (add_target (sampleRegistry 256) "echo hi".toList).2 = [Event.unable_to_add]
      ∧ (add_target (sampleRegistry 256) "echo hi".toList).1.length = NSLOTS :=
  add_target_at_capacity (sampleRegistry 256) "echo hi".toList (by decide!) (by decide!)

/-! ### The probe -/

theorem cmp_loop_eq_zero_iff (buf : Nat → Char) (i : Nat) (cs : List Char) :
    cmp_loop buf i cs = 0 ↔
      ∀ j (hj : j < cs.length), buf (i + j) = cs[j] ∨ (buf (i + j) = NUL ∧ cs[j] = SP) := by
  induction cs generalizing i with
  | nil => simp [cmp_loop]
  | cons c cs ih =>
    unfold cmp_loop
    have hstep : (∀ j (hj : j < (c :: cs).length),
          buf (i + j) = (c :: cs)[j] ∨ (buf (i + j) = NUL ∧ (c :: cs)[j] = SP)) ↔
        ((buf i = c ∨ (buf i = NUL ∧ c = SP)) ∧
          ∀ j (hj : j < cs.length), buf (i + 1 + j) = cs[j] ∨ (buf (i + 1 + j) = NUL ∧ cs[j] = SP)) := by
      constructor
      · intro h
        refine ⟨by simpa using h 0 (by simp), fun j hj => ?_⟩
        have := h (j + 1) (by simpa using hj)
        simpa [Nat.add_assoc, Nat.add_comm 1 j] using this
      · rintro ⟨h0, h⟩ j hj
        cases j with
        | zero => simpa using h0
        | succ j =>
          have := h j (by simpa using hj)
          simpa [Nat.add_assoc, Nat.add_comm 1 j] using this
    rw [hstep]
    split_ifs with h1 h2
    · rw [ih]; exact ⟨fun h => ⟨Or.inr h1, h⟩, fun h => h.2⟩
    · constructor
      · intro h; exact absurd h (by decide)
      · rintro ⟨h0 | h0, _⟩
        · exact absurd h0 h2
        · exact absurd h0 h1
    · rw [ih]
      exact ⟨fun h => ⟨Or.inl (not_not.mp h2), h⟩, fun h => h.2⟩

/-- The probe on data that covers the whole command line: a match exactly when
at least one byte was read and every position of the command line agrees with
the byte read there, a NUL standing for a space. -/
theorem target_is_target_eq_zero_iff (stale : Nat → Char) (cmd bytes : List Char)
    (hlen : cmd.length ≤ (bytes.take NSLOTS).length) :
    target_is_target stale cmd (ProcRead.content bytes) = 0 ↔
      1 ≤ (bytes.take NSLOTS).length ∧
        ∀ j (hj : j < cmd.length),
          (bytes.take NSLOTS)[j] = cmd[j] ∨ ((bytes.take NSLOTS)[j] = NUL ∧ cmd[j] = SP) := by
  unfold target_is_target
  simp only []
  split_ifs with h0
  · constructor
    · intro h; exact absurd h (by decide)
    · intro h; omega
  · rw [cmp_loop_eq_zero_iff]
    have hb : ∀ j, j < cmd.length → bufAt stale (bytes.take NSLOTS) (0 + j)
        = (bytes.take NSLOTS).getD j NUL := by
      intro j hj
      have : j < (bytes.take NSLOTS).length := by omega
      simp [bufAt, List.getD_eq_getElem?_getD, List.getElem?_eq_getElem this]
    constructor
    · intro h
      refine ⟨by omega, fun j hj => ?_⟩
      have hj2 : j < (bytes.take NSLOTS).length := by omega
      have := h j hj
      rw [hb j hj] at this
      simpa [List.getD_eq_getElem?_getD, List.getElem?_eq_getElem hj2] using this
    · rintro ⟨_, h⟩ j hj
      have hj2 : j < (bytes.take NSLOTS).length := by omega
      rw [hb j hj]
      simpa [List.getD_eq_getElem?_getD, List.getElem?_eq_getElem hj2] using h j hj

/-- An unreadable or empty process file is never a match. -/
theorem target_is_target_unreadable (stale : Nat → Char) (c : List Char) :
    target_is_target stale c ProcRead.open_failed = -1
      ∧ target_is_target stale c ProcRead.read_failed = -1
      ∧ target_is_target stale c (ProcRead.content []) = -1 := by
  refine ⟨rfl, rfl, ?_⟩
  simp [target_is_target]

/-- C6, at the failing input: the target is `sleep 999999`, the process file
holds the 6 bytes `sleep\0` and the buffer still holds `sleep\0999999\0` from
an earlier probe. The data read does not cover position 6 of the command line,
yet `target_is_target` reports a match: the loop compares the bytes beyond
those `read` returned. -/
theorem probe_matches_beyond_data :
    target_is_target (staleOf ("sleep".toList ++ [NUL] ++ "999999".toList ++ [NUL]))
        "sleep 999999".toList (ProcRead.content (procCmdline ["sleep".toList])) = 0
      ∧ (procCmdline ["sleep".toList]).length = 6
      ∧ (procCmdline ["sleep".toList])[6]? = none
      ∧ "sleep 999999".toList.length = 12 := by decide!

/-- The same on a zero-filled buffer: a process started as `sleep` is a match
for the command line `sleep` followed by two spaces, whose last position lies
beyond the six bytes read. -/
theorem probe_matches_on_zeroed_buffer :
    target_is_target (fun _ => NUL) "sleep  ".toList
        (ProcRead.content (procCmdline ["sleep".toList])) = 0
      ∧ (procCmdline ["sleep".toList]).length = 6
      ∧ "sleep  ".toList.length = 7 := by decide!

/-! ### Pids after a slot is reused -/

/-- C5, at the failing input: from the empty table, reconcile `a`, run a cycle
that adopts pid 5 for `a`, reconcile `b` (which frees slot 0 but leaves its
pid), reconcile `c`. The new target `c` takes slot 0 and starts with pid 5,
which no probe ever matched against `c`. -/
theorem new_target_inherits_pid :
    (run [Op.reconcile (some (configFile ["a".toList])), Op.cycle (oneProcess ["a".toList]),
          Op.reconcile (some (configFile ["b".toList])),
          Op.reconcile (some (configFile ["c".toList]))] (emptyRegistry, [])).1.head?
        = some { cmdline := some "c".toList, found := 1, pid := 5 }
      ∧ confirmed (run [Op.reconcile (some (configFile ["a".toList])),
          Op.cycle (oneProcess ["a".toList]),
          Op.reconcile (some (configFile ["b".toList])),
          Op.reconcile (some (configFile ["c".toList]))] (emptyRegistry, [])).2 5 "c".toList = false
      ∧ pidsConfirmed (run [Op.reconcile (some (configFile ["a".toList])),
          Op.cycle (oneProcess ["a".toList]),
          Op.reconcile (some (configFile ["b".toList])),
          Op.reconcile (some (configFile ["c".toList]))] (emptyRegistry, [])) = false := by
  decide!

/-! ### The deadline of the heartbeat loop -/

theorem guard_send_idle (w : World) (h : Heartbeat) (master : Int) (s : GuardState)
    (hp : s.ping = 0) : guard_send w h master s = (s, true) := by
  simp [guard_send, hp]

/-- A wait that times out: the loop is left exactly when the deadline has
passed; otherwise only the clock and the wait counter change. -/
theorem guard_wait_timeout (h : Heartbeat) (s : GuardState) (hsel : h.select s.round = 0) :
    guard_wait h s =
      if tv_sec (s.clock + h.select_time s.round) - s.now > 120 then
        ({ s with clock := s.clock + h.select_time s.round, waits := s.waits + 1,
                  events := s.events ++ [Event.timeout] }, false)
      else ({ s with clock := s.clock + h.select_time s.round, waits := s.waits + 1 }, true) := by
  simp [guard_wait, hsel]

/-- Rounds of a loop in which every wait times out after at least 60 seconds,
from a round whose send block leaves the state `u` with `ping = 0`: the loop
ends through the deadline check within `m + 1` waits once the clock is within
`m` timeouts of the deadline. -/
theorem guard_loop_silent (w : World) (h : Heartbeat) (master : Int)
    (hsel : ∀ k, h.select k = 0) (htime : ∀ k, 60000000 ≤ h.select_time k) (m : Nat) :
    ∀ (fuel : Nat) (s u : GuardState) (T : Nat), m + 1 ≤ fuel →
      guard_send w h master s = (u, true) → u.round = s.round → u.ping = 0 →
      u.now = tv_sec T → T + (2 - m) * 60000000 ≤ u.clock →
      ∃ s1, guard_loop w h master fuel s = some s1
        ∧ s1.events = u.events ++ [Event.timeout]
        ∧ u.waits + 1 ≤ s1.waits ∧ s1.waits ≤ u.waits + (m + 1)
        ∧ tv_sec s1.clock - s1.now > 120 := by
  induction m with
  | zero =>
    intro fuel s u T hfuel hsend hround hping hnow hclock
    obtain ⟨f, rfl⟩ : ∃ f, fuel = f + 1 := ⟨fuel - 1, by omega⟩
    have hw := guard_wait_timeout h u (hsel u.round)
    have hd : tv_sec (u.clock + h.select_time u.round) - u.now > 120 := by
      have := htime u.round
      rw [hnow]; unfold tv_sec; omega
    rw [if_pos hd] at hw
    refine ⟨{ u with clock := u.clock + h.select_time u.round, waits := u.waits + 1,
                     events := u.events ++ [Event.timeout], round := s.round + 1 },
      ?_, rfl, ?_, ?_, ?_⟩
    · simp only [guard_loop, guard_round, hsend, hw]
      rfl
    · simp
    · simp
    · simpa using hd
  | succ m ih =>
    intro fuel s u T hfuel hsend hround hping hnow hclock
    obtain ⟨f, rfl⟩ : ∃ f, fuel = f + 1 := ⟨fuel - 1, by omega⟩
    have hw := guard_wait_timeout h u (hsel u.round)
    by_cases hd : tv_sec (u.clock + h.select_time u.round) - u.now > 120
    · rw [if_pos hd] at hw
      refine ⟨{ u with clock := u.clock + h.select_time u.round, waits := u.waits + 1,
                       events := u.events ++ [Event.timeout], round := s.round + 1 },
        ?_, rfl, ?_, ?_, ?_⟩
      · simp only [guard_loop, guard_round, hsend, hw]
        rfl
      · simp
      · simp
      · simpa using hd
    · rw [if_neg hd] at hw
      have hloop : guard_loop w h master (f + 1) s = guard_loop w h master f
          { u with clock := u.clock + h.select_time u.round, waits := u.waits + 1,
                   round := s.round + 1 } := by
        simp only [guard_loop, guard_round, hsend, hw]
        rfl
      have := htime u.round
      obtain ⟨s1, h1, h2, h3, h4, h5⟩ := ih f
        { u with clock := u.clock + h.select_time u.round, waits := u.waits + 1,
                 round := s.round + 1 }
        { u with clock := u.clock + h.select_time u.round, waits := u.waits + 1,
                 round := s.round + 1 } T (by omega)
        (guard_send_idle w h master _ hping) rfl hping hnow (by simp only []; omega)
      refine ⟨s1, hloop.trans h1, h2, ?_, ?_, h5⟩
      · simp only [] at h3; omega
      · simp only [] at h4; omega

/-- The heartbeat loop with a silent twin ends through the deadline check. -/
theorem guard_loop_deadline (w : World) (h : Heartbeat) (master : Int)
    (hsel : ∀ k, h.select k = 0) (htime : ∀ k, 60000000 ≤ h.select_time k)
    (hwrite : ∀ k, 0 ≤ h.write k) (fuel : Nat) (hfuel : 3 ≤ fuel) (s : GuardState)
    (hwaits : s.waits = 0) (hnow : s.now = tv_sec s.clock) :
    ∃ s1, guard_loop w h master fuel s = some s1
      ∧ [Event.timeout] <:+ s1.events
      ∧ 1 ≤ s1.waits ∧ s1.waits ≤ 3 ∧ tv_sec s1.clock - s1.now > 120 := by
  by_cases hp : s.ping = 0
  · obtain ⟨s1, h1, h2, h3, h4, h5⟩ := guard_loop_silent w h master hsel htime 2 fuel s s s.clock
      (by omega) (guard_send_idle w h master s hp) rfl hp hnow (by omega)
    exact ⟨s1, h1, ⟨_, h2.symm⟩, by omega, by omega, h5⟩
  · have hw : ¬ h.write s.round < 0 := by have := hwrite s.round; omega
    have hsend : ∃ u, guard_send w h master s = (u, true) ∧ u.round = s.round ∧ u.ping = 0
        ∧ u.now = tv_sec u.clock ∧ u.waits = 0 := by
      unfold guard_send
      rw [if_pos hp]
      simp only []
      rw [if_neg hw]
      refine ⟨_, rfl, ?_, rfl, rfl, ?_⟩
      · split_ifs <;> rfl
      · split_ifs <;> simpa using hwaits
    obtain ⟨u, hu, hround, hping, hunow, huw⟩ := hsend
    obtain ⟨s1, h1, h2, h3, h4, h5⟩ := guard_loop_silent w h master hsel htime 2 fuel s u u.clock
      (by omega) hu hround hping hunow (by omega)
    exact ⟨s1, h1, ⟨_, h2.symm⟩, by omega, by omega, h5⟩

/-- C7, as amended: for both roles, if the master's heartbeat write succeeds,
no token ever becomes readable and every `select` returns 0 after at least 60
seconds, then `guard` returns within three rounds, having left the loop through
the deadline check (`timeout`, with more than 120 seconds counted since the
last recorded activity) after one to three waits, and its last action is
`kill(pid, SIGKILL)`; and a wait after which more than 120 seconds are counted
leaves the loop whatever `select` returned, through the deadline check unless
`select` itself failed. -/
theorem guard_deadline (w : World) (h : Heartbeat) (r : List Target) (t0 : Nat)
    (pid ping : Int) (fuel : Nat)
    (hsel : ∀ k, h.select k = 0) (htime : ∀ k, 60000000 ≤ h.select_time k)
    (hwrite : ∀ k, 0 ≤ h.write k) (hfuel : 3 ≤ fuel) :
    (∃ s, guard w h fuel r t0 pid ping = some s
        ∧ [Event.timeout, Event.kill pid] <:+ s.events
        ∧ 1 ≤ s.waits ∧ s.waits ≤ 3 ∧ tv_sec s.clock - s.now > 120)
      ∧ ∀ (g : Heartbeat) (s : GuardState),
          tv_sec (s.clock + g.select_time s.round) - s.now > 120 →
          (guard_wait g s).2 = false
            ∧ (0 ≤ g.select s.round →
                (guard_wait g s).1.events = s.events ++ [Event.timeout]
                  ∧ (guard_wait g s).1.ping = s.ping) := by
  constructor
  · obtain ⟨s1, h1, ⟨pre, h2⟩, h3, h4, h5⟩ := guard_loop_deadline w h ping hsel htime hwrite fuel
      hfuel { ping := ping, now := tv_sec t0, clock := t0, round := 0, waits := 0,
              targets := r, tick := 0, events := [Event.guard_with pid] } rfl rfl
    refine ⟨{ s1 with events := s1.events ++ [Event.kill pid] }, ?_, ?_, h3, h4, h5⟩
    · simp [guard, h1]
    · refine ⟨pre, ?_⟩
      simp only []
      rw [← h2]
      simp
  · intro g s hd
    constructor
    · by_cases hneg : g.select s.round < 0
      · simp [guard_wait, hneg]
      · simp [guard_wait, hneg, hd]
    · intro hret
      have hneg : ¬ g.select s.round < 0 := by omega
      simp [guard_wait, hneg, hd]

/-- Witness of C7: the master role facing a twin that never answers. -/
theorem guard_deadline_witness :
    (∃ s, guard deadWorld silentTwin 3 emptyRegistry 0 77 1 = some s
        ∧ [Event.timeout, Event.kill 77] <:+ s.events
        ∧ 1 ≤ s.waits ∧ s.waits ≤ 3 ∧ tv_sec s.clock - s.now > 120)
      ∧ ∀ (g : Heartbeat) (s : GuardState),
          tv_sec (s.clock + g.select_time s.round) - s.now > 120 →
          (guard_wait g s).2 = false
            ∧ (0 ≤ g.select s.round →
                (guard_wait g s).1.events = s.events ++ [Event.timeout]
                  ∧ (guard_wait g s).1.ping = s.ping) :=
  guard_deadline deadWorld silentTwin emptyRegistry 0 77 1 3 (fun _ => rfl)
    (fun _ => by simp [silentTwin]) (fun _ => by simp [silentTwin]) (by decide)

/-- C7 as stated fails for the master role: when its heartbeat write fails,
no wait is ever made (so every wait made did time out), and the loop is left
through the write error, not through the deadline check. -/
theorem guard_master_write_failure :
    (∀ k, goneTwin.select k = 0) ∧ (∀ k, 60000000 ≤ goneTwin.select_time k)
      ∧ (guard deadWorld goneTwin 3 emptyRegistry 0 77 1).map (fun s => (s.events, s.waits))
          = some ([Event.guard_with 77, Event.check_targets, Event.send_ping, Event.ping_error,
                   Event.kill 77], 0) := by
  refine ⟨fun _ => rfl, fun _ => by simp [goneTwin, silentTwin], by decide!⟩

/-! ### Launcher and probe agree -/

theorem offsSP_length_le (base : Nat) (xs : List Char) : (offsSP base xs).length ≤ xs.length := by
  induction xs generalizing base with
  | nil => simp [offsSP]
  | cons x xs ih =>
    unfold offsSP
    split_ifs
    · simpa using ih (base + 1)
    · have := ih (base + 1); simp; omega

theorem getD_append_cons (pre : List Char) (x : Char) (l : List Char) (d : Char) :
    (pre ++ x :: l).getD pre.length d = x := by
  induction pre with
  | nil => rfl
  | cons p pre ih =>
    rw [List.cons_append, List.length_cons, List.getD_cons_succ]
    exact ih

theorem set_append_cons (pre : List Char) (x y : Char) (l : List Char) :
    (pre ++ x :: l).set pre.length y = pre ++ y :: l := by
  induction pre with
  | nil => rfl
  | cons p pre ih => simp [ih]

theorem split_loop_eq (xs pre tail : List Char) (argv : List Nat) :
    split_loop (List.range' pre.length xs.length) (pre ++ xs ++ tail, argv)
      = (pre ++ nulled xs ++ tail, argv ++ offsSP pre.length xs) := by
  induction xs generalizing pre argv with
  | nil => simp [split_loop, nulled, offsSP]
  | cons x xs ih =>
    have hget : (pre ++ x :: xs ++ tail).getD pre.length NUL = x := by
      have := getD_append_cons pre x (xs ++ tail) NUL
      simpa using this
    have hset : (pre ++ x :: xs ++ tail).set pre.length NUL = (pre ++ [NUL]) ++ xs ++ tail := by
      simp [set_append_cons pre x NUL (xs ++ tail)]
    rw [List.length_cons, List.range'_succ]
    unfold split_loop
    rw [hget]
    split_ifs with hx
    · rw [hset]
      have := ih (pre ++ [NUL]) (argv ++ [pre.length + 1])
      simp only [List.length_append, List.length_singleton] at this
      rw [this]
      simp [nulled, offsSP, hx]
    · have := ih (pre ++ [x]) argv
      simp only [List.length_append, List.length_singleton] at this
      have he : pre ++ x :: xs ++ tail = pre ++ [x] ++ xs ++ tail := by simp
      rw [he, this]
      simp [nulled, offsSP, hx]

theorem build_argv_eq (x : Char) (xs : List Char) (hlen : (x :: xs).length ≤ NSLOTS) :
    build_argv (x :: xs)
      = ([x] ++ nulled xs ++ List.replicate (NSLOTS - (x :: xs).length) NUL, [0] ++ offsSP 1 xs) := by
  unfold build_argv strncpy
  rw [List.take_of_length_le hlen]
  have := split_loop_eq xs [x] (List.replicate (NSLOTS - (x :: xs).length) NUL) [0]
  simpa using this

theorem cstr_cons_ne (x : Char) (l : List Char) (hx : x ≠ NUL) : cstr (x :: l) = x :: cstr l := by
  simp [cstr, List.takeWhile_cons, hx]

theorem cstr_cons_NUL (l : List Char) : cstr (NUL :: l) = [] := by
  simp [cstr, List.takeWhile_cons]

theorem argAt_append (pre l : List Char) : argAt (pre ++ l) pre.length = cstr l := by
  simp [argAt]

theorem procCmdline_cons (a : List Char) (as : List (List Char)) :
    procCmdline (a :: as) = a ++ [NUL] ++ procCmdline as := by
  simp [procCmdline]

/-- The arguments cut at the offsets that follow the spaces, each followed by
a NUL, spell the command line with its spaces turned into NULs. -/
theorem procCmdline_split (xs pre tail : List Char) (hnul : NUL ∉ xs) :
    procCmdline ((pre.length :: offsSP pre.length xs).map
        (argAt (pre ++ nulled xs ++ NUL :: tail)))
      = nulled xs ++ [NUL] := by
  induction xs generalizing pre with
  | nil =>
    have := argAt_append pre (NUL :: tail)
    simp [offsSP, nulled, procCmdline, this, cstr_cons_NUL]
  | cons x xs ih =>
    have hx : x ≠ NUL := fun h => hnul (by simp [h])
    have hxs : NUL ∉ xs := fun h => hnul (by simp [h])
    by_cases hsp : x = SP
    · have hB : pre ++ nulled (x :: xs) ++ NUL :: tail
          = (pre ++ [NUL]) ++ nulled xs ++ NUL :: tail := by simp [nulled, hsp]
      have h0 : argAt (pre ++ nulled (x :: xs) ++ NUL :: tail) pre.length = [] := by
        have : pre ++ nulled (x :: xs) ++ NUL :: tail = pre ++ (NUL :: (nulled xs ++ NUL :: tail)) := by
          simp [nulled, hsp]
        rw [this, argAt_append, cstr_cons_NUL]
      have hi := ih (pre ++ [NUL]) hxs
      simp only [List.length_append, List.length_singleton] at hi
      have ho : offsSP pre.length (x :: xs) = (pre.length + 1) :: offsSP (pre.length + 1) xs := by
        simp [offsSP, hsp]
      rw [ho, List.map_cons, procCmdline_cons, h0, hB, hi]
      simp [nulled, hsp]
    · have hB : pre ++ nulled (x :: xs) ++ NUL :: tail
          = (pre ++ [x]) ++ nulled xs ++ NUL :: tail := by simp [nulled, hsp]
      have h0 : argAt (pre ++ nulled (x :: xs) ++ NUL :: tail) pre.length
          = x :: argAt ((pre ++ [x]) ++ nulled xs ++ NUL :: tail) (pre.length + 1) := by
        have e1 : pre ++ nulled (x :: xs) ++ NUL :: tail = pre ++ (x :: (nulled xs ++ NUL :: tail)) := by
          simp [nulled, hsp]
        have e2 : (pre ++ [x]) ++ nulled xs ++ NUL :: tail = (pre ++ [x]) ++ (nulled xs ++ NUL :: tail) := by
          simp
        have e3 := argAt_append (pre ++ [x]) (nulled xs ++ NUL :: tail)
        simp only [List.length_append, List.length_singleton] at e3
        rw [e1, argAt_append, cstr_cons_ne _ _ hx, e2, e3]
      have hi := ih (pre ++ [x]) hxs
      simp only [List.length_append, List.length_singleton] at hi
      have ho : offsSP pre.length (x :: xs) = offsSP (pre.length + 1) xs := by
        simp [offsSP, hsp]
      rw [List.map_cons, procCmdline_cons] at hi
      rw [ho, List.map_cons, procCmdline_cons, h0, ← hB] at *
      simp only [nulled, List.map_cons, if_neg hsp, List.cons_append, List.append_assoc] at hi ⊢
      rw [hi]

/-- The process file of a process started with the argument vector that
`target_invoke` builds. -/
theorem procCmdline_argv_of (x : Char) (xs : List Char) (hlen : (x :: xs).length < NSLOTS)
    (hnul : NUL ∉ x :: xs) :
    procCmdline (argv_of (x :: xs)) = x :: nulled xs ++ [NUL] := by
  have hx : x ≠ NUL := fun h => hnul (by simp [h])
  have hxs : NUL ∉ xs := fun h => hnul (by simp [h])
  obtain ⟨m, hm⟩ : ∃ m, NSLOTS - (x :: xs).length = m + 1 := ⟨NSLOTS - (x :: xs).length - 1, by omega⟩
  unfold argv_of
  rw [build_argv_eq x xs (Nat.le_of_lt hlen), hm]
  have hr : List.replicate (m + 1) NUL = NUL :: List.replicate m NUL := rfl
  rw [hr]
  have h1 := procCmdline_split xs [x] (List.replicate m NUL) hxs
  simp only [List.length_singleton, List.map_cons, procCmdline_cons] at h1
  have h0 : ∀ rest : List Char, argAt (x :: rest) 0 = x :: argAt (x :: rest) 1 := by
    intro rest
    simp [argAt, cstr_cons_ne _ _ hx]
  have hB : [x] ++ nulled xs ++ NUL :: List.replicate m NUL
      = x :: (nulled xs ++ NUL :: List.replicate m NUL) := by simp
  rw [hB] at h1 ⊢
  simp only [List.singleton_append, List.map_cons, procCmdline_cons, h0, List.cons_append,
    List.nil_append]
  rw [h1]

theorem argv_entries_le (x : Char) (xs : List Char) (hlen : (x :: xs).length ≤ NSLOTS) :
    argv_entries (x :: xs) ≤ (x :: xs).length + 1 := by
  unfold argv_entries
  rw [build_argv_eq x xs hlen]
  have := offsSP_length_le 1 xs
  simp only [List.length_append, List.length_singleton, List.length_cons, List.length_nil]
  omega

/-- C10: for a command line of 1 to 254 characters (none of them NUL), the
argument vector that `target_invoke` cuts at the spaces, written as the
process file of the started process (each argument followed by a NUL), is a
match for that command line in `target_is_target`, whatever the buffer held
before; and the cutting writes at most 256 `argv` entries, the closing `NULL`
included. -/
theorem launcher_probe_agree (stale : Nat → Char) (cmd : List Char)
    (hmin : 1 ≤ cmd.length) (hmax : cmd.length ≤ 254) (hnul : NUL ∉ cmd) :
    target_is_target stale cmd (ProcRead.content (procCmdline (argv_of cmd))) = 0
      ∧ argv_entries cmd ≤ 256 := by
  cases cmd with
  | nil => simp at hmin
  | cons x xs =>
    have hlen : (x :: xs).length < NSLOTS := by unfold NSLOTS; omega
    have hn : (nulled xs).length = xs.length := by simp [nulled]
    refine ⟨?_, ?_⟩
    · rw [procCmdline_argv_of x xs hlen hnul]
      have htake : (x :: nulled xs ++ [NUL]).take NSLOTS = x :: (nulled xs ++ [NUL]) := by
        apply List.take_of_length_le
        simp only [List.cons_append, List.length_cons, List.length_append, hn, List.length_nil]
        simp only [List.length_cons] at hlen
        omega
      have hcmp : target_is_target stale (x :: xs)
            (ProcRead.content (x :: nulled xs ++ [NUL]))
          = cmp_loop (bufAt stale (x :: (nulled xs ++ [NUL]))) 0 (x :: xs) := by
        unfold target_is_target
        simp only [htake]
        simp
      rw [hcmp, cmp_loop_eq_zero_iff]
      intro j hj
      cases j with
      | zero => left; simp [bufAt]
      | succ j =>
        have hj2 : j < xs.length := by simpa using hj
        have hj3 : j < (nulled xs).length := by omega
        have e : bufAt stale (x :: (nulled xs ++ [NUL])) (0 + (j + 1))
            = if xs[j] = SP then NUL else xs[j] := by
          have e1 : (nulled xs ++ [NUL])[j]? = some (if xs[j] = SP then NUL else xs[j]) := by
            rw [List.getElem?_append_left hj3, List.getElem?_eq_getElem hj3]
            simp [nulled]
          simp [bufAt, List.getD_eq_getElem?_getD, e1]
        rw [e]
        by_cases hsp : xs[j] = SP
        · right; exact ⟨by simp [hsp], by simpa using hsp⟩
        · left; simp [hsp]
    · have := argv_entries_le x xs (Nat.le_of_lt hlen)
      simp only [List.length_cons] at this hmax
      omega

/-- Witness of C10: a command line with a leading space, two spaces in a row
and a trailing space. -/
theorem launcher_probe_agree_witness :
    target_is_target (staleOf "zzzzzzzzzzzz".toList) " echo  hi ".toList
        (ProcRead.content (procCmdline (argv_of " echo  hi ".toList))) = 0
      ∧ argv_entries " echo  hi ".toList ≤ 256 :=
  launcher_probe_agree (staleOf "zzzzzzzzzzzz".toList) " echo  hi ".toList
    (by decide) (by decide) (by decide)

/-! ### Marking and sweeping -/

theorem registered_cons (t : Target) (ts : List Target) :
    registered (t :: ts) = (match t.cmdline with | none => [] | some c => [c]) ++ registered ts := by
  cases h : t.cmdline <;> simp [registered, List.filterMap_cons, h]

theorem marked_cons (t : Target) (ts : List Target) :
    marked (t :: ts) = (if t.found = 0 then [] else
      match t.cmdline with | none => [] | some c => [c]) ++ marked ts := by
  cases h : t.cmdline <;> by_cases hf : t.found = 0 <;> simp [marked, List.filterMap_cons, h, hf]

theorem freeSlots_cons (t : Target) (ts : List Target) :
    freeSlots (t :: ts) = (if t.cmdline = none then 1 else 0) + freeSlots ts := by
  by_cases h : t.cmdline = none <;> simp [freeSlots, List.countP_cons, h, Nat.add_comm]

theorem marked_subset_registered (r : List Target) : ∀ x ∈ marked r, x ∈ registered r := by
  induction r with
  | nil => simp [marked]
  | cons t ts ih =>
    intro x hx
    rw [marked_cons] at hx
    rw [registered_cons]
    rcases List.mem_append.mp hx with h | h
    · split_ifs at h with hf
      · simp at h
      · exact List.mem_append_left _ h
    · exact List.mem_append_right _ (ih x h)

theorem get_target_eq_none_iff (r : List Target) (c : List Char) :
    get_target r c = none ↔ c ∉ registered r := by
  induction r with
  | nil => simp [get_target, registered]
  | cons t ts ih =>
    rw [registered_cons]
    unfold get_target
    cases h : t.cmdline with
    | none => simpa using ih
    | some d =>
      by_cases hd : d = c
      · simp [hd]
      · have hd2 : ¬ c = d := fun e => hd e.symm
        simpa [hd, hd2] using ih

theorem set_found_get_target (r : List Target) (c : List Char) (i : Nat)
    (h : get_target r c = some i) : set_found r i 1 = touch r c := by
  induction r generalizing i with
  | nil => simp [get_target] at h
  | cons t ts ih =>
    unfold get_target at h
    unfold touch
    cases hc : t.cmdline with
    | none =>
      rw [hc] at h
      cases hg : get_target ts c with
      | none => simp [hg] at h
      | some k =>
        simp only [hg, Option.map_some', Option.some.injEq] at h
        subst h
        simp [set_found, ih k hg, hc]
    | some d =>
      rw [hc] at h
      by_cases hd : d = c
      · simp only [hd, if_true, Option.some.injEq] at h
        subst h
        simp [set_found, hd, hc]
      · cases hg : get_target ts c with
        | none => simp [hg, hd] at h
        | some k =>
          simp only [hg, hd, if_false, Option.map_some', Option.some.injEq] at h
          subst h
          simp [set_found, ih k hg, hd, hc]

theorem register_eq (r : List Target) (ev : List Event) (c : List Char) :
    register (r, ev) c =
      if c ∈ registered r then (touch r c, ev)
      else ((add_target r c).1, ev ++ (add_target r c).2) := by
  unfold register
  cases h : get_target r c with
  | none =>
    have := (get_target_eq_none_iff r c).mp h
    simp [this]
  | some i =>
    have : c ∈ registered r := by
      by_contra hn
      rw [(get_target_eq_none_iff r c).mpr hn] at h
      exact absurd h (by simp)
    simp [this, set_found_get_target r c i h]

theorem registered_touch (r : List Target) (c : List Char) :
    registered (touch r c) = registered r := by
  induction r with
  | nil => rfl
  | cons t ts ih =>
    unfold touch
    split_ifs with h
    · rw [registered_cons, registered_cons]
    · rw [registered_cons, registered_cons, ih]

theorem freeSlots_touch (r : List Target) (c : List Char) :
    freeSlots (touch r c) = freeSlots r := by
  induction r with
  | nil => rfl
  | cons t ts ih =>
    unfold touch
    split_ifs with h
    · rw [freeSlots_cons, freeSlots_cons]
    · rw [freeSlots_cons, freeSlots_cons, ih]

theorem mem_marked_touch (r : List Target) (c x : List Char) :
    x ∈ marked (touch r c) ↔ x ∈ marked r ∨ (x = c ∧ c ∈ registered r) := by
  induction r with
  | nil => simp [touch, marked, registered]
  | cons t ts ih =>
    unfold touch
    split_ifs with h
    · rw [marked_cons, marked_cons, registered_cons]
      simp only [h]
      by_cases hf : t.found = 0
      · simp [hf]
        tauto
      · simp [hf]
        tauto
    · rw [marked_cons, marked_cons, registered_cons, List.mem_append, List.mem_append, ih]
      have hne : x = c → x ∉ (match t.cmdline with | none => [] | some d => [d]) := by
        intro hx
        cases hc : t.cmdline with
        | none => simp
        | some d =>
          have : d ≠ c := fun e => h (by rw [hc, e])
          simp [hx, Ne.symm this]
      constructor
      · rintro (h1 | h1 | ⟨h1, h2⟩)
        · exact Or.inl (Or.inl h1)
        · exact Or.inl (Or.inr h1)
        · exact Or.inr ⟨h1, List.mem_append_right _ h2⟩
      · rintro ((h1 | h1) | ⟨h1, h2⟩)
        · exact Or.inl h1
        · exact Or.inr (Or.inl h1)
        · rcases List.mem_append.mp h2 with h3 | h3
          · exact absurd (h1 ▸ h3) (hne h1 |> fun e => by simpa [h1] using e)
          · exact Or.inr (Or.inr ⟨h1, h3⟩)

theorem firstMarked_touch (r : List Target) (c : List Char) (h : firstMarked r) :
    firstMarked (touch r c) := by
  induction r with
  | nil => trivial
  | cons t ts ih =>
    obtain ⟨h1, h2⟩ := h
    unfold touch
    split_ifs with hc
    · exact ⟨fun d hd => h1 d hd, h2⟩
    · refine ⟨fun d hd hm => ?_, ih h2⟩
      rcases (mem_marked_touch ts c d).mp hm with hm | ⟨hm, _⟩
      · exact h1 d hd hm
      · exact hc (by rw [hd, hm])

theorem add_target_of_free (r : List Target) (c : List Char) (hfree : 0 < freeSlots r) :
    (∀ x, x ∈ registered (add_target r c).1 ↔ x = c ∨ x ∈ registered r)
      ∧ (∀ x, x ∈ marked (add_target r c).1 ↔ x = c ∨ x ∈ marked r)
      ∧ freeSlots (add_target r c).1 + 1 = freeSlots r
      ∧ (add_target r c).2 = [Event.add_target c] := by
  induction r with
  | nil => simp [freeSlots] at hfree
  | cons t ts ih =>
    unfold add_target
    cases hc : t.cmdline with
    | none =>
      simp only []
      refine ⟨fun x => ?_, fun x => ?_, ?_, ?_⟩
      · rw [registered_cons, registered_cons]; simp [hc]
      · rw [marked_cons, marked_cons]; simp [hc]
      · rw [freeSlots_cons, freeSlots_cons]; simp [hc]; omega
      · trivial
    | some d =>
      have hfree2 : 0 < freeSlots ts := by
        rw [freeSlots_cons] at hfree; simpa [hc] using hfree
      obtain ⟨i1, i2, i3, i4⟩ := ih hfree2
      simp only []
      refine ⟨fun x => ?_, fun x => ?_, ?_, i4⟩
      · rw [registered_cons, registered_cons, List.mem_append, List.mem_append, i1]; tauto
      · rw [marked_cons, marked_cons, List.mem_append, List.mem_append, i2]; tauto
      · rw [freeSlots_cons, freeSlots_cons]; simp [hc]; omega

theorem mem_marked_add_target (r : List Target) (c x : List Char)
    (hx : x ∈ marked (add_target r c).1) : x = c ∨ x ∈ marked r := by
  induction r with
  | nil => simp [add_target, marked] at hx
  | cons t ts ih =>
    unfold add_target at hx
    cases hc : t.cmdline with
    | none =>
      rw [hc] at hx
      simp only [] at hx
      rw [marked_cons] at hx
      rw [marked_cons]
      simp [hc] at hx ⊢
      exact hx
    | some d =>
      rw [hc] at hx
      simp only [] at hx
      rw [marked_cons, List.mem_append] at hx
      rw [marked_cons, List.mem_append]
      rcases hx with hx | hx
      · exact Or.inr (Or.inl hx)
      · rcases ih hx with h | h
        · exact Or.inl h
        · exact Or.inr (Or.inr h)

theorem firstMarked_add_target (r : List Target) (c : List Char) (hc : c ∉ registered r)
    (h : firstMarked r) : firstMarked (add_target r c).1 := by
  induction r with
  | nil => trivial
  | cons t ts ih =>
    obtain ⟨h1, h2⟩ := h
    have hcts : c ∉ registered ts := by
      rw [registered_cons] at hc
      exact fun hm => hc (List.mem_append_right _ hm)
    unfold add_target
    cases ht : t.cmdline with
    | none =>
      simp only []
      refine ⟨fun d hd hm => ?_, h2⟩
      simp only [Option.some.injEq] at hd
      subst hd
      exact hcts (marked_subset_registered ts _ hm)
    | some d =>
      simp only []
      refine ⟨fun e he hm => ?_, ih hcts h2⟩
      rcases mem_marked_add_target ts c e hm with hm | hm
      · subst hm
        rw [registered_cons] at hc
        exact hc (List.mem_append_left _ (by simp [he]))
      · exact h1 e he hm

theorem marked_reinit (r : List Target) : marked (reinit_targets r) = [] := by
  induction r with
  | nil => rfl
  | cons t ts ih =>
    have : reinit_targets (t :: ts) = { t with found := 0 } :: reinit_targets ts := rfl
    rw [this, marked_cons, ih]
    simp

theorem registered_reinit (r : List Target) : registered (reinit_targets r) = registered r := by
  induction r with
  | nil => rfl
  | cons t ts ih =>
    have : reinit_targets (t :: ts) = { t with found := 0 } :: reinit_targets ts := rfl
    rw [this, registered_cons, registered_cons, ih]

theorem freeSlots_reinit (r : List Target) : freeSlots (reinit_targets r) = freeSlots r := by
  induction r with
  | nil => rfl
  | cons t ts ih =>
    have : reinit_targets (t :: ts) = { t with found := 0 } :: reinit_targets ts := rfl
    rw [this, freeSlots_cons, freeSlots_cons, ih]

theorem firstMarked_reinit (r : List Target) : firstMarked (reinit_targets r) := by
  induction r with
  | nil => trivial
  | cons t ts ih =>
    have : reinit_targets (t :: ts) = { t with found := 0 } :: reinit_targets ts := rfl
    rw [this]
    refine ⟨fun c _ => ?_, ih⟩
    rw [marked_reinit]
    simp

theorem registered_refresh (r : List Target) :
    registered (refresh_targets r).1 = marked r := by
  induction r with
  | nil => rfl
  | cons t ts ih =>
    unfold refresh_targets
    cases hc : t.cmdline with
    | none =>
      simp only []
      rw [registered_cons, marked_cons, ih]
      simp [hc]
    | some c =>
      simp only []
      split_ifs with hf
      · rw [registered_cons, marked_cons, ih]
        simp [hf]
      · rw [registered_cons, marked_cons, ih]
        simp [hf, hc]

theorem marked_nodup (r : List Target) (h : firstMarked r) : (marked r).Nodup := by
  induction r with
  | nil => simp [marked]
  | cons t ts ih =>
    obtain ⟨h1, h2⟩ := h
    rw [marked_cons]
    split_ifs with hf
    · simpa using ih h2
    · cases hc : t.cmdline with
      | none => simpa using ih h2
      | some c =>
        simp only [List.singleton_append, List.nodup_cons]
        exact ⟨h1 c hc, ih h2⟩

/-- The loop of `loadconfig` over the command lines it is handed, when the free
slots suffice for the distinct lines not registered yet: every line ends up
marked, nothing else gets marked, and marked slots stay first. -/
theorem foldl_register_marked (lines : List (List Char)) :
    ∀ (r : List Target) (ev : List Event), firstMarked r →
      (lines.toFinset \ (registered r).toFinset).card ≤ freeSlots r →
      firstMarked (lines.foldl register (r, ev)).1
        ∧ ∀ x, x ∈ marked (lines.foldl register (r, ev)).1 ↔ x ∈ marked r ∨ x ∈ lines := by
  induction lines with
  | nil => intro r ev h _; exact ⟨h, by simp⟩
  | cons c rest ih =>
    intro r ev hJ hcap
    rw [List.foldl_cons, register_eq]
    by_cases hc : c ∈ registered r
    · rw [if_pos hc]
      have hcap2 : (rest.toFinset \ (registered (touch r c)).toFinset).card
          ≤ freeSlots (touch r c) := by
        rw [registered_touch, freeSlots_touch]
        refine le_trans (Finset.card_le_card ?_) hcap
        intro x hx
        simp only [Finset.mem_sdiff, List.mem_toFinset, List.mem_cons] at hx ⊢
        exact ⟨Or.inr hx.1, hx.2⟩
      obtain ⟨i1, i2⟩ := ih (touch r c) ev (firstMarked_touch r c hJ) hcap2
      refine ⟨i1, fun x => ?_⟩
      rw [i2, mem_marked_touch, List.mem_cons]
      constructor
      · rintro ((h | ⟨h, _⟩) | h)
        · exact Or.inl h
        · exact Or.inr (Or.inl h)
        · exact Or.inr (Or.inr h)
      · rintro (h | h | h)
        · exact Or.inl (Or.inl h)
        · exact Or.inl (Or.inr ⟨h, hc⟩)
        · exact Or.inr h
    · rw [if_neg hc]
      have hcB : c ∈ (c :: rest).toFinset \ (registered r).toFinset := by
        simp [hc]
      have hfree : 0 < freeSlots r :=
        lt_of_lt_of_le (Finset.card_pos.mpr ⟨c, hcB⟩) hcap
      obtain ⟨a1, a2, a3, _⟩ := add_target_of_free r c hfree
      have hsub : rest.toFinset \ (registered (add_target r c).1).toFinset
          ⊂ (c :: rest).toFinset \ (registered r).toFinset := by
        refine (Finset.ssubset_iff_of_subset ?_).mpr ⟨c, hcB, ?_⟩
        · intro x hx
          simp only [Finset.mem_sdiff, List.mem_toFinset, List.mem_cons, a1] at hx ⊢
          exact ⟨Or.inr hx.1, fun h => hx.2 (Or.inr h)⟩
        · simp [a1]
      have hcap2 : (rest.toFinset \ (registered (add_target r c).1).toFinset).card
          ≤ freeSlots (add_target r c).1 := by
        have := Finset.card_lt_card hsub
        omega
      obtain ⟨i1, i2⟩ := ih (add_target r c).1 (ev ++ (add_target r c).2)
        (firstMarked_add_target r c hc hJ) hcap2
      refine ⟨i1, fun x => ?_⟩
      rw [i2, a2, List.mem_cons]
      tauto

theorem loadconfig_loop_eq (fuel : Nat) (s : List Char) (st : List Target × List Event) :
    loadconfig_loop fuel s st = ((readChunks fuel s).filterMap parse_line).foldl register st := by
  induction fuel generalizing s st with
  | zero => rfl
  | succ fuel ih =>
    unfold loadconfig_loop readChunks
    cases hf : fgets NSLOTS s with
    | none => rfl
    | some p =>
      obtain ⟨buf, rest⟩ := p
      simp only []
      cases hp : parse_line buf with
      | none => simp [List.filterMap_cons, hp, ih]
      | some c => simp [List.filterMap_cons, hp, ih]

/-- The table after `loadconfig`, when the free slots suffice for the distinct
command lines of the file that are not registered yet: the registered command
lines are those of the file, each once. -/
theorem loadconfig_registered (r : List Target) (s : List Char)
    (hcap : ((configLines s).toFinset \ (registered r).toFinset).card ≤ freeSlots r) :
    (∀ x, x ∈ registered (loadconfig r (some s)).1 ↔ x ∈ configLines s)
      ∧ (registered (loadconfig r (some s)).1).Nodup := by
  have hcap2 : ((configLines s).toFinset \ (registered (reinit_targets r)).toFinset).card
      ≤ freeSlots (reinit_targets r) := by
    rw [registered_reinit, freeSlots_reinit]; exact hcap
  obtain ⟨h1, h2⟩ := foldl_register_marked (configLines s) (reinit_targets r) []
    (firstMarked_reinit r) hcap2
  have he : registered (loadconfig r (some s)).1
      = marked ((configLines s).foldl register (reinit_targets r, [])).1 := by
    simp only [loadconfig, loadconfig_loop_eq, registered_refresh]
    rfl
  rw [he]
  refine ⟨fun x => ?_, marked_nodup _ h1⟩
  rw [h2, marked_reinit]
  simp

/-! ### Lines read from the file -/

theorem fgetsAux_rest_length_le (n : Nat) (s : List Char) :
    (fgetsAux n s).2.length ≤ s.length := by
  induction s generalizing n with
  | nil => cases n <;> simp [fgetsAux]
  | cons c s ih =>
    cases n with
    | zero => simp [fgetsAux]
    | succ n =>
      unfold fgetsAux
      split_ifs
      · simp
      · have := ih n
        simp only [List.length_cons]
        omega

theorem fgetsAux_rest_length_lt (n : Nat) (c : Char) (s : List Char) :
    (fgetsAux (n + 1) (c :: s)).2.length ≤ s.length := by
  unfold fgetsAux
  split_ifs
  · simp
  · exact fgetsAux_rest_length_le n s

theorem readChunks_nil (f : Nat) : readChunks f [] = [] := by
  cases f <;> simp [readChunks, fgets]

theorem readChunks_cons (f : Nat) (c : Char) (s : List Char) :
    readChunks (f + 1) (c :: s)
      = (fgetsAux (NSLOTS - 1) (c :: s)).1 :: readChunks f (fgetsAux (NSLOTS - 1) (c :: s)).2 := by
  simp [readChunks, fgets]

theorem readChunks_fuel (f1 : Nat) : ∀ (f2 : Nat) (s : List Char),
    s.length ≤ f1 → s.length ≤ f2 → readChunks f1 s = readChunks f2 s := by
  induction f1 with
  | zero =>
    intro f2 s h1 _
    have : s = [] := List.length_eq_zero.mp (by omega)
    subst this
    rw [readChunks_nil, readChunks_nil]
  | succ f1 ih =>
    intro f2 s h1 h2
    cases s with
    | nil => rw [readChunks_nil, readChunks_nil]
    | cons c s =>
      obtain ⟨g, rfl⟩ : ∃ g, f2 = g + 1 := ⟨f2 - 1, by simp at h2; omega⟩
      rw [readChunks_cons, readChunks_cons]
      have hl := fgetsAux_rest_length_lt (NSLOTS - 1 - 1) c s
      have he : NSLOTS - 1 - 1 + 1 = NSLOTS - 1 := by decide
      rw [he] at hl
      simp only [List.length_cons] at h1 h2
      rw [ih g _ (by omega) (by omega)]

theorem fgetsAux_append_LF (n : Nat) (a b : List Char) :
    fgetsAux n (a ++ LF :: b)
      = ((fgetsAux n (a ++ [LF])).1, (fgetsAux n (a ++ [LF])).2 ++ b) := by
  induction a generalizing n with
  | nil => cases n <;> simp [fgetsAux]
  | cons c a ih =>
    cases n with
    | zero => simp [fgetsAux]
    | succ n =>
      simp only [List.cons_append]
      unfold fgetsAux
      split_ifs
      · simp
      · rw [ih n]

theorem fgetsAux_rest_form (n : Nat) (a : List Char) :
    (fgetsAux n (a ++ [LF])).2 = [] ∨ ∃ a1, (fgetsAux n (a ++ [LF])).2 = a1 ++ [LF] := by
  induction a generalizing n with
  | nil => cases n <;> simp [fgetsAux]
  | cons c a ih =>
    cases n with
    | zero => right; exact ⟨c :: a, by simp [fgetsAux]⟩
    | succ n =>
      simp only [List.cons_append]
      unfold fgetsAux
      split_ifs
      · right; exact ⟨a, rfl⟩
      · exact ih n

/-- Reading a file that starts with a line-feed terminated part reads that part
and then the rest, whatever the length of the lines. -/
theorem readChunks_append (k : Nat) : ∀ (a b : List Char), a.length ≤ k →
    readChunks (a ++ LF :: b).length (a ++ LF :: b)
      = readChunks (a ++ [LF]).length (a ++ [LF]) ++ readChunks b.length b := by
  induction k with
  | zero =>
    intro a b ha
    have : a = [] := List.length_eq_zero.mp (by omega)
    subst this
    simp only [List.nil_append, List.length_cons, List.length_nil]
    rw [readChunks_cons, readChunks_cons]
    have h1 : fgetsAux (NSLOTS - 1) (LF :: b) = ([LF], b) := by
      simp [fgetsAux, NSLOTS]
    have h2 : fgetsAux (NSLOTS - 1) [LF] = ([LF], []) := by
      simp [fgetsAux, NSLOTS]
    rw [h1, h2, readChunks_nil]
    rfl
  | succ k ih =>
    intro a b ha
    cases a with
    | nil => exact ih [] b (by simp)
    | cons c a =>
      have hl1 : (c :: a ++ LF :: b).length = (a ++ LF :: b).length + 1 := by simp
      have hl2 : (c :: a ++ [LF]).length = (a ++ [LF]).length + 1 := by simp
      rw [hl1, hl2]
      simp only [List.cons_append]
      rw [readChunks_cons, readChunks_cons]
      have hsplit := fgetsAux_append_LF (NSLOTS - 1) (c :: a) b
      simp only [List.cons_append] at hsplit
      rw [hsplit]
      simp only [List.cons_append, List.cons.injEq, true_and]
      have hlt := fgetsAux_rest_length_lt (NSLOTS - 1 - 1) c (a ++ [LF])
      have he : NSLOTS - 1 - 1 + 1 = NSLOTS - 1 := by decide
      rw [he] at hlt
      rcases fgetsAux_rest_form (NSLOTS - 1) (c :: a) with h0 | ⟨a1, h1⟩
      · simp only [List.cons_append] at h0
        rw [h0, readChunks_nil, List.nil_append, List.nil_append]
        exact readChunks_fuel _ _ _ (by simp; omega) (le_refl _)
      · simp only [List.cons_append] at h1
        rw [h1] at hlt ⊢
        simp only [List.length_append, List.length_singleton, List.length_cons] at hlt ha
        have e1 : a1 ++ [LF] ++ b = a1 ++ LF :: b := by simp
        rw [e1]
        rw [readChunks_fuel (a ++ LF :: b).length (a1 ++ LF :: b).length (a1 ++ LF :: b)
          (by simp; omega) (le_refl _)]
        rw [readChunks_fuel (a ++ [LF]).length (a1 ++ [LF]).length (a1 ++ [LF])
          (by simp; omega) (le_refl _)]
        exact ih a1 b (by omega)

theorem configLines_append (a b : List Char) :
    configLines (a ++ LF :: b) = configLines (a ++ [LF]) ++ configLines b := by
  unfold configLines
  rw [readChunks_append a.length a b (le_refl _), List.filterMap_append]

/-- The command lines of a file are those of its lines, line by line. -/
theorem configLines_configFile (lines : List (List Char)) :
    configLines (configFile lines) = lines.flatMap fun l => configLines (l ++ [LF]) := by
  induction lines with
  | nil => rfl
  | cons l ls ih =>
    have : configFile (l :: ls) = l ++ LF :: configFile ls := by simp [configFile]
    rw [this, configLines_append, ih]
    simp

theorem fgetsAux_line (n : Nat) (l b : List Char) (hlf : LF ∉ l) (hlen : l.length < n) :
    fgetsAux n (l ++ LF :: b) = (l ++ [LF], b) := by
  induction l generalizing n with
  | nil =>
    obtain ⟨m, rfl⟩ : ∃ m, n = m + 1 := ⟨n - 1, by simp at hlen; omega⟩
    simp [fgetsAux]
  | cons c l ih =>
    obtain ⟨m, rfl⟩ : ∃ m, n = m + 1 := ⟨n - 1, by simp at hlen; omega⟩
    have hc : c ≠ LF := fun h => hlf (by simp [h])
    have hl : LF ∉ l := fun h => hlf (by simp [h])
    simp only [List.cons_append]
    unfold fgetsAux
    rw [if_neg hc, ih m hl (by simp at hlen; omega)]

theorem takeWhile_ne_cons (x c : Char) (l : List Char) (hc : c ≠ x) :
    (c :: l).takeWhile (· ≠ x) = c :: l.takeWhile (· ≠ x) := by
  rw [List.takeWhile_cons]
  simp [hc]

theorem takeWhile_ne_append (x : Char) (l b : List Char) (hx : x ∉ l) :
    (l ++ x :: b).takeWhile (· ≠ x) = l := by
  induction l with
  | nil => simp [List.takeWhile_cons]
  | cons c l ih =>
    have hc : c ≠ x := fun h => hx (by simp [h])
    have hl : x ∉ l := fun h => hx (by simp [h])
    rw [List.cons_append, takeWhile_ne_cons x c _ hc, ih hl]

theorem takeWhile_ne_self (x : Char) (l : List Char) (hx : x ∉ l) :
    l.takeWhile (· ≠ x) = l := by
  induction l with
  | nil => rfl
  | cons c l ih =>
    have hc : c ≠ x := fun h => hx (by simp [h])
    have hl : x ∉ l := fun h => hx (by simp [h])
    rw [takeWhile_ne_cons x c _ hc, ih hl]

theorem parse_line_line (l : List Char) (hlf : LF ∉ l) (hnul : NUL ∉ l) :
    parse_line (l ++ [LF]) = if validLine l then some l else none := by
  have hne : NUL ∉ l ++ [LF] := by
    simp only [List.mem_append, List.mem_singleton, not_or]
    exact ⟨hnul, by decide⟩
  have hc : cstr (l ++ [LF]) = l ++ [LF] := takeWhile_ne_self NUL _ hne
  unfold parse_line
  rw [hc, takeWhile_ne_append LF l [] hlf]
  simp only [List.mem_append, List.mem_singleton, or_true, if_true]
  cases l with
  | nil => simp [validLine]
  | cons c l => by_cases h : c = HASH <;> simp [validLine, h]

/-- A line that fits the line buffer is delivered as it is when it is valid and
dropped otherwise. -/
theorem configLines_line (l : List Char) (hlen : l.length ≤ 254) (hlf : LF ∉ l)
    (hnul : NUL ∉ l) : configLines (l ++ [LF]) = if validLine l then [l] else [] := by
  unfold configLines
  have hl : (l ++ [LF]).length = l.length + 1 := by simp
  have hcons : ∃ c s, l ++ [LF] = c :: s := by
    cases l with
    | nil => exact ⟨LF, [], rfl⟩
    | cons c l => exact ⟨c, l ++ [LF], rfl⟩
  obtain ⟨c, s, hcs⟩ := hcons
  have hf : fgetsAux (NSLOTS - 1) (l ++ [LF]) = (l ++ [LF], []) :=
    fgetsAux_line (NSLOTS - 1) l [] hlf (by unfold NSLOTS; omega)
  rw [hl, hcs, readChunks_cons, ← hcs, hf, readChunks_nil]
  simp only [List.filterMap_cons, List.filterMap_nil]
  rw [parse_line_line l hlf hnul]
  by_cases hv : validLine l = true <;> simp [hv]

theorem configLines_of_fit (lines : List (List Char))
    (hfit : ∀ l ∈ lines, l.length ≤ 254 ∧ LF ∉ l ∧ NUL ∉ l) :
    configLines (configFile lines) = lines.filter validLine := by
  rw [configLines_configFile]
  induction lines with
  | nil => rfl
  | cons l ls ih =>
    obtain ⟨h1, h2, h3⟩ := hfit l (List.mem_cons_self _ _)
    have ih2 := ih (fun x hx => hfit x (List.mem_cons_of_mem _ hx))
    rw [List.flatMap_cons, ih2, configLines_line l h1 h2 h3, List.filter_cons]
    by_cases hv : validLine l = true <;> simp [hv]

/-! ### Reconciliation against a snapshot -/

/-- C4, as amended: for every table and every snapshot whose lines fit the line
buffer (at most 254 characters, no line feed, no NUL), when the free slots
suffice for the distinct valid lines not registered yet, the command lines
registered after `loadconfig` are exactly the snapshot lines that are
non-empty and do not begin with `#`, each of them once. -/
theorem loadconfig_exact (r : List Target) (lines : List (List Char))
    (hfit : ∀ l ∈ lines, l.length ≤ 254 ∧ LF ∉ l ∧ NUL ∉ l)
    (hcap : ((lines.filter validLine).toFinset \ (registered r).toFinset).card ≤ freeSlots r) :
    (∀ x, x ∈ registered (loadconfig r (some (configFile lines))).1
        ↔ x ∈ lines ∧ x ≠ [] ∧ x.head? ≠ some HASH)
      ∧ (registered (loadconfig r (some (configFile lines))).1).Nodup := by
  have hl := configLines_of_fit lines hfit
  obtain ⟨h1, h2⟩ := loadconfig_registered r (configFile lines) (by rw [hl]; exact hcap)
  refine ⟨fun x => ?_, h2⟩
  rw [h1, hl, List.mem_filter]
  simp [validLine]

/-- C2, as amended: when the free slots suffice for the distinct command lines
of the snapshot that are not registered yet, a second `loadconfig` on the same
snapshot leaves the same set of registered command lines as the first. -/
theorem loadconfig_idempotent (r : List Target) (lines : List (List Char))
    (hcap : ((configLines (configFile lines)).toFinset \ (registered r).toFinset).card
      ≤ freeSlots r) :
    (registered (loadconfig (loadconfig r (some (configFile lines))).1
        (some (configFile lines))).1).toFinset
      = (registered (loadconfig r (some (configFile lines))).1).toFinset := by
  obtain ⟨h1, _⟩ := loadconfig_registered r (configFile lines) hcap
  have hcap2 : ((configLines (configFile lines)).toFinset
      \ (registered (loadconfig r (some (configFile lines))).1).toFinset).card
      ≤ freeSlots (loadconfig r (some (configFile lines))).1 := by
    have : (configLines (configFile lines)).toFinset
        \ (registered (loadconfig r (some (configFile lines))).1).toFinset = ∅ := by
      ext x
      simp only [Finset.mem_sdiff, List.mem_toFinset, h1, Finset.not_mem_empty, iff_false]
      tauto
    rw [this]
    simp
  obtain ⟨h2, _⟩ := loadconfig_registered _ (configFile lines) hcap2
  ext x
  rw [List.mem_toFinset, List.mem_toFinset, h2, h1]

/-- C3, as amended: when the free slots suffice for the distinct command lines
of the snapshot that are not registered yet, `loadconfig` on a snapshot and on
any permutation of it leave the same set of registered command lines. -/
theorem loadconfig_order_independent (r : List Target) (lines lines2 : List (List Char))
    (hperm : lines.Perm lines2)
    (hcap : ((configLines (configFile lines)).toFinset \ (registered r).toFinset).card
      ≤ freeSlots r) :
    (registered (loadconfig r (some (configFile lines))).1).toFinset
      = (registered (loadconfig r (some (configFile lines2))).1).toFinset := by
  have hp : (configLines (configFile lines)).Perm (configLines (configFile lines2)) := by
    rw [configLines_configFile, configLines_configFile]
    exact List.Perm.flatMap_right _ hperm
  have hset : (configLines (configFile lines2)).toFinset = (configLines (configFile lines)).toFinset :=
    List.toFinset_eq_of_perm _ _ hp.symm
  obtain ⟨h1, _⟩ := loadconfig_registered r (configFile lines) hcap
  obtain ⟨h2, _⟩ := loadconfig_registered r (configFile lines2) (by rw [hset]; exact hcap)
  ext x
  rw [List.mem_toFinset, List.mem_toFinset, h1, h2]
  exact hp.mem_iff

/-- Witness of C4: the end-to-end example on the empty table. -/
theorem loadconfig_exact_witness :
    (∀ x, x ∈ registered (loadconfig emptyRegistry (some (configFile sampleLines))).1
        ↔ x ∈ sampleLines ∧ x ≠ [] ∧ x.head? ≠ some HASH)
      ∧ (registered (loadconfig emptyRegistry (some (configFile sampleLines))).1).Nodup :=
  loadconfig_exact emptyRegistry sampleLines (by decide!) (by decide!)

/-- The end-to-end example, evaluated: the first snapshot registers the two
commands; with pid 5 adopted for `echo hi`, the second snapshot removes
`sleep 999999` and leaves `echo hi` with its pid. -/
theorem loadconfig_end_to_end :
    registered (loadconfig emptyRegistry (some (configFile sampleLines))).1
        = ["sleep 999999".toList, "echo hi".toList]
      ∧ ((run [Op.reconcile (some (configFile sampleLines)),
              Op.cycle (oneProcess ["echo".toList, "hi".toList]),
              Op.reconcile (some (configFile ["echo hi".toList]))] (emptyRegistry, [])).1.filter
            fun t => t.cmdline.isSome)
          = [{ cmdline := some "echo hi".toList, found := 1, pid := 5 }] := by decide!

/-- C4 as stated fails on a line that does not fit the line buffer: a snapshot
whose only line has 255 characters (a valid line, and the empty table has room
for it) registers nothing, because `fgets` returns the line without its line
feed and the loop skips it. -/
theorem long_line_not_registered :
    validLine (List.replicate 255 (Char.ofNat 97)) = true
      ∧ (([List.replicate 255 (Char.ofNat 97)].filter validLine).toFinset
          \ (registered emptyRegistry).toFinset).card ≤ freeSlots emptyRegistry
      ∧ registered (loadconfig emptyRegistry
          (some (configFile [List.replicate 255 (Char.ofNat 97)]))).1 = [] := by decide!

/-- Witness of C2: the end-to-end example on the empty table. -/
theorem loadconfig_idempotent_witness :
    (registered (loadconfig (loadconfig emptyRegistry (some (configFile sampleLines))).1
        (some (configFile sampleLines))).1).toFinset
      = (registered (loadconfig emptyRegistry (some (configFile sampleLines))).1).toFinset :=
  loadconfig_idempotent emptyRegistry sampleLines (by decide!)

/-- C2 as stated fails on a full table: with 256 targets registered and a
snapshot holding one other command, the first `loadconfig` cannot add the
command (no free slot) and then removes all 256 targets; the second one finds
the table empty and registers the command. -/
theorem loadconfig_not_idempotent_when_full :
    registered (loadconfig (sampleRegistry 256) (some (configFile ["echo hi".toList]))).1 = []
      ∧ registered (loadconfig
            (loadconfig (sampleRegistry 256) (some (configFile ["echo hi".toList]))).1
            (some (configFile ["echo hi".toList]))).1 = ["echo hi".toList] := by decide!

/-- Witness of C3: two commands in either order on the empty table. -/
theorem loadconfig_order_independent_witness :
    (registered (loadconfig emptyRegistry
        (some (configFile ["sleep 999999".toList, "echo hi".toList]))).1).toFinset
      = (registered (loadconfig emptyRegistry
        (some (configFile ["echo hi".toList, "sleep 999999".toList]))).1).toFinset :=
  loadconfig_order_independent emptyRegistry ["sleep 999999".toList, "echo hi".toList]
    ["echo hi".toList, "sleep 999999".toList] (List.Perm.swap _ _ _) (by decide!)

/-- C3 as stated fails when one slot is free: with 255 targets registered, two
new commands in the snapshot compete for the free slot and the one listed
first wins. -/
theorem loadconfig_order_matters_when_full :
    ["sleep 999999".toList, "echo hi".toList].Perm ["echo hi".toList, "sleep 999999".toList]
      ∧ registered (loadconfig (sampleRegistry 255)
          (some (configFile ["sleep 999999".toList, "echo hi".toList]))).1
          = ["sleep 999999".toList]
      ∧ registered (loadconfig (sampleRegistry 255)
          (some (configFile ["echo hi".toList, "sleep 999999".toList]))).1
          = ["echo hi".toList] := by
  refine ⟨List.Perm.swap _ _ _, by decide!, by decide!⟩

/-- A line with a NUL byte in it is dropped as well: `strchr` stops at the NUL
and finds no line feed. -/
theorem nul_line_not_registered :
    registered (loadconfig emptyRegistry
      (some (configFile [[Char.ofNat 97, NUL, Char.ofNat 98]]))).1 = [] := by decide!

theorem fgetsAux_length_le (n : Nat) (s : List Char) : (fgetsAux n s).1.length ≤ n := by
  induction s generalizing n with
  | nil => cases n <;> simp [fgetsAux]
  | cons c s ih =>
    cases n with
    | zero => simp [fgetsAux]
    | succ n =>
      unfold fgetsAux
      split_ifs
      · simp
      · have := ih n
        simp only [List.length_cons]
        omega

/-- What `loadconfig` can store: a command line cut from a buffer of at most
255 characters has 1 to 254 characters, none of them a NUL or a line feed. -/
theorem parse_line_storable (buf cmd : List Char) (hbuf : buf.length ≤ 255)
    (h : parse_line buf = some cmd) :
    1 ≤ cmd.length ∧ cmd.length ≤ 254 ∧ NUL ∉ cmd ∧ LF ∉ cmd := by
  unfold parse_line at h
  have h1 : LF ∈ cstr buf := by
    by_contra hn
    rw [if_neg hn] at h
    exact absurd h (by simp)
  rw [if_pos h1] at h
  simp only [] at h
  split_ifs at h with h2 h3
  simp only [Option.some.injEq] at h
  subst h
  have hc : (cstr buf).length ≤ buf.length := by
    unfold cstr
    exact (List.takeWhile_sublist _).length_le
  have hlt : ((cstr buf).takeWhile (· ≠ LF)).length < (cstr buf).length := by
    rcases Nat.lt_or_ge ((cstr buf).takeWhile (· ≠ LF)).length (cstr buf).length with h | h
    · exact h
    · exfalso
      have hsub := List.takeWhile_sublist (fun x => decide (x ≠ LF)) (l := cstr buf)
      have heq := hsub.eq_of_length_le h
      have hall := List.takeWhile_eq_self_iff.mp heq LF h1
      simp at hall
  refine ⟨by omega, by omega, fun hn => ?_, fun hl => ?_⟩
  · have h4 := (List.takeWhile_sublist _).subset hn
    have h5 := List.mem_takeWhile_imp h4
    simp at h5
  · have h5 := List.mem_takeWhile_imp hl
    simp at h5

/-- Every pid that one slot of `check` leaves in the table was matched against
the slot's command line in that same pass: after a launch or by the
re-verification. -/
theorem check_slot_confirms (w : World) (cmd : List Char) (t : Target) (n : Int) (k : Nat)
    (hpid : (check_slot w cmd t n k).1.pid > 0) :
    Event.running (check_slot w cmd t n k).1.pid cmd ∈ (check_slot w cmd t n k).2.2.2
      ∨ Event.alive (check_slot w cmd t n k).1.pid cmd ∈ (check_slot w cmd t n k).2.2.2 := by
  have hinv : ∀ (u : Target) (j : Nat), (target_invoke w cmd u j).1.pid > 0 →
      Event.running (target_invoke w cmd u j).1.pid cmd ∈ (target_invoke w cmd u j).2.2 := by
    intro u j
    unfold target_invoke
    simp only []
    split
    · intro h; simp at h
    · split
      · intro _; simp
      · intro h; simp at h
  revert hpid
  unfold check_slot
  simp only []
  split_ifs with h1 h2 h3 h4 h5
  · intro hp
    left
    exact List.mem_append_right _ (List.mem_cons_of_mem _ (hinv _ _ hp))
  · intro _
    right
    simp
  · intro hp
    exact absurd hp h2
  · intro hp
    left
    exact List.mem_append_right _ (List.mem_cons_of_mem _ (hinv _ _ hp))
  · intro _
    right
    simp
  · intro hp
    exact absurd hp h4

end TwinGuards
